import Mathlib

/-!
Verification of the vault-server core (path normalization, rate limiting,
session store, CLI vault adapter mount lifecycle, and the session-local
directory index) against its natural-language specification.

Paths handed to the filesystem layer are modelled as segment lists
(`List String`); the source's slash-joined strings correspond one-to-one to
such lists for filesystem-valid names (nonempty, no slash). Python floats
(timestamps) are modelled as rationals. String code-point operations
(`str.lower`, lexicographic comparison, splitting on the separator) are
modelled over `List Char`, matching Python's code-point semantics.
-/

namespace VaultServer

/-! ## Path normalization (`app/utils.py`, `normalize_path`) -/

/-- Split a character list on the slash separator, mirroring how
`PurePosixPath` tokenizes its input. -/
def splitOnSlash : List Char → List (List Char)
  | [] => [[]]
  | c :: rest =>
    let r := splitOnSlash rest
    if c = '/' then [] :: r
    else
      match r with
      | [] => [[c]]
      | seg :: segs => (c :: seg) :: segs

/-- The non-root parts of a POSIX path: `PurePosixPath` drops empty segments
and lone-dot segments when normalizing. -/
def posixSegments (s : String) : List String :=
  ((splitOnSlash s.data).filter (fun seg => !seg.isEmpty && seg ≠ ['.'])).map String.mk

/-- The root element of `PurePosixPath(s).parts` for an absolute path `s`:
exactly two leading slashes are preserved, any other run collapses to one. -/
def posixRootOf (s : String) : String :=
  match s.data with
  | '/' :: '/' :: '/' :: _ => "/"
  | '/' :: '/' :: _ => "//"
  | _ => "/"

/-- Join path segments with slashes.  -/
def joinSegs : List String → String
  | [] => ""
  | [s] => s
  | s :: rest => s ++ "/" ++ joinSegs rest

/-- `str(PurePosixPath(raw))` for an absolute input `raw`: the root followed
by the cleaned-up segments. -/
def posixNormalize (raw : String) : String :=
  let root := posixRootOf raw
  let segs := posixSegments raw
  if segs.isEmpty then root else root ++ joinSegs segs

/-- `PurePosixPath(p).parts` for an absolute `p`: the root element followed by
the segments. -/
def posixParts (p : String) : List String :=
  posixRootOf p :: posixSegments p

/-- Does the string start with a slash? (`raw_path.startswith("/")`). -/
def startsWithSlash (s : String) : Bool :=
  match s.data with
  | c :: _ => c = '/'
  | [] => false

/-- `normalize_path` from `app/utils.py`: empty input maps to the root, a
relative input is made absolute by prefixing a slash, the result is
normalized, and any remaining `..` part is rejected with `ValueError`. -/
def normalize_path (raw_path : String) : Except String String :=
  if raw_path = "" then Except.ok "/"
  else
    let raw := if startsWithSlash raw_path then raw_path else "/" ++ raw_path
    let normalized := posixNormalize raw
    if (posixParts normalized).contains ".." then Except.error "Invalid path traversal"
    else Except.ok normalized

/-- The normalized absolute form of an input, as produced by the source: `/`
for the empty string, otherwise the `PurePosixPath` normalization of the
slash-prefixed input. -/
def normalizedForm (P : String) : String :=
  if P = "" then "/" else posixNormalize (if startsWithSlash P then P else "/" ++ P)

/-! ## Rate limiter (`app/rate_limit.py`) -/

/-- Configuration of the sliding-window login rate limiter. -/
structure RateLimiter where
  max_attempts : Nat
  window_seconds : ℚ

/-- The `while attempts and now - attempts[0] > window: popleft()` loop:
drop timestamps from the front while they are older than the window. -/
def RateLimiter.evict (window now : ℚ) : List ℚ → List ℚ
  | [] => []
  | t :: ts => if window < now - t then RateLimiter.evict window now ts else t :: ts

/-- `RateLimiter.allow`: evict stale attempts, deny without recording when the
maximum is reached, otherwise record the attempt and admit. Returns the
decision and the updated per-key record. -/
def RateLimiter.allow (rl : RateLimiter) (now : ℚ) (attempts : List ℚ) : Bool × List ℚ :=
  let a := RateLimiter.evict rl.window_seconds now attempts
  if rl.max_attempts ≤ a.length then (false, a)
  else (true, a ++ [now])

/-- Run a sequence of `allow` calls for one key, collecting the decisions and
threading the per-key record. -/
def RateLimiter.allowRun (rl : RateLimiter) (attempts : List ℚ) : List ℚ → List Bool × List ℚ
  | [] => ([], attempts)
  | t :: ts =>
    let r := rl.allow t attempts
    let rest := rl.allowRun r.2 ts
    (r.1 :: rest.1, rest.2)

theorem evict_cons_old {window now t : ℚ} {ts : List ℚ} (h : window < now - t) :
    RateLimiter.evict window now (t :: ts) = RateLimiter.evict window now ts := by
  simp [RateLimiter.evict, h]

theorem evict_cons_keep {window now t : ℚ} {ts : List ℚ} (h : ¬ window < now - t) :
    RateLimiter.evict window now (t :: ts) = t :: ts := by
  simp [RateLimiter.evict, h]

theorem allow_empty (rl : RateLimiter) (now : ℚ) (h : 0 < rl.max_attempts) :
    rl.allow now [] = (true, [now]) := by
  simp [RateLimiter.allow, RateLimiter.evict, Nat.not_le_of_lt h]

theorem allow_fresh_admit (rl : RateLimiter) (now t : ℚ) (ts : List ℚ)
    (h : ¬ rl.window_seconds < now - t) (hlen : (t :: ts).length < rl.max_attempts) :
    rl.allow now (t :: ts) = (true, (t :: ts) ++ [now]) := by
  have hlen1 : ¬ rl.max_attempts ≤ ts.length + 1 := by
    simp only [List.length_cons] at hlen
    omega
  simp [RateLimiter.allow, evict_cons_keep h, hlen1]

theorem allow_fresh_deny (rl : RateLimiter) (now t : ℚ) (ts : List ℚ)
    (h : ¬ rl.window_seconds < now - t) (hlen : rl.max_attempts ≤ (t :: ts).length) :
    rl.allow now (t :: ts) = (false, t :: ts) := by
  have hlen1 : rl.max_attempts ≤ ts.length + 1 := by
    simp only [List.length_cons] at hlen
    omega
  simp [RateLimiter.allow, evict_cons_keep h, hlen1]

/-- C4: with `max_attempts = 5` and `window_seconds = 300`, six calls within
one window return `true,true,true,true,true,false` and a call after the
window has elapsed returns `true`; a denied call records no timestamp (the
record is exactly the evicted record), and each call first evicts from the
front of a time-ordered record exactly the timestamps older than the
window. -/
theorem claim_C4 (t1 t2 t3 t4 t5 t6 t7 : ℚ)
    (h12 : t1 ≤ t2) (h23 : t2 ≤ t3) (h34 : t3 ≤ t4) (h45 : t4 ≤ t5) (h56 : t5 ≤ t6)
    (hwin : t6 - t1 ≤ 300) (hgap : 300 < t7 - t6) :
    ((RateLimiter.allowRun ⟨5, 300⟩ [] [t1, t2, t3, t4, t5, t6]).1 =
        [true, true, true, true, true, false] ∧
      (RateLimiter.allow ⟨5, 300⟩ t7
        (RateLimiter.allowRun ⟨5, 300⟩ [] [t1, t2, t3, t4, t5, t6]).2).1 = true) ∧
    (∀ (rl : RateLimiter) (now : ℚ) (s : List ℚ),
        (rl.allow now s).1 = false →
          (rl.allow now s).2 = RateLimiter.evict rl.window_seconds now s) ∧
    (∀ (window now : ℚ) (s : List ℚ), s.Pairwise (· ≤ ·) →
        RateLimiter.evict window now s = s.filter (fun t => decide (now - t ≤ window))) := by
  have e1 : ¬ (300:ℚ) < t2 - t1 := by intro h; linarith
  have e2 : ¬ (300:ℚ) < t3 - t1 := by intro h; linarith
  have e3 : ¬ (300:ℚ) < t4 - t1 := by intro h; linarith
  have e4 : ¬ (300:ℚ) < t5 - t1 := by intro h; linarith
  have e5 : ¬ (300:ℚ) < t6 - t1 := by intro h; linarith
  have rl5 : (⟨5, 300⟩ : RateLimiter).window_seconds = 300 := rfl
  have s1 := allow_empty (⟨5, 300⟩ : RateLimiter) t1 (by norm_num)
  have s2 := allow_fresh_admit (⟨5, 300⟩ : RateLimiter) t2 t1 [] e1 (by simp)
  have s3 := allow_fresh_admit (⟨5, 300⟩ : RateLimiter) t3 t1 [t2] e2 (by simp)
  have s4 := allow_fresh_admit (⟨5, 300⟩ : RateLimiter) t4 t1 [t2, t3] e3 (by simp)
  have s5 := allow_fresh_admit (⟨5, 300⟩ : RateLimiter) t5 t1 [t2, t3, t4] e4 (by simp)
  have s6 := allow_fresh_deny (⟨5, 300⟩ : RateLimiter) t6 t1 [t2, t3, t4, t5] e5 (by simp)
  refine ⟨⟨?_, ?_⟩, ?_, ?_⟩
  · simp [RateLimiter.allowRun, s1, s2, s3, s4, s5, s6]
  · have hev : RateLimiter.evict 300 t7 [t1, t2, t3, t4, t5] = [] := by
      rw [evict_cons_old (by linarith), evict_cons_old (by linarith),
        evict_cons_old (by linarith), evict_cons_old (by linarith),
        evict_cons_old (by linarith)]
      rfl
    have hrun : (RateLimiter.allowRun ⟨5, 300⟩ [] [t1, t2, t3, t4, t5, t6]).2 =
        [t1, t2, t3, t4, t5] := by
      simp [RateLimiter.allowRun, s1, s2, s3, s4, s5, s6]
    rw [hrun]
    simp [RateLimiter.allow, hev]
  · intro rl now s hfalse
    unfold RateLimiter.allow at hfalse ⊢
    by_cases hle : rl.max_attempts ≤ (RateLimiter.evict rl.window_seconds now s).length
    · simp [hle]
    · simp [hle] at hfalse
  · intro window now s hs
    induction s with
    | nil => rfl
    | cons t ts ih =>
      rcases List.pairwise_cons.mp hs with ⟨hhead, htail⟩
      by_cases h : window < now - t
      · have hd : (decide (now - t ≤ window)) = false := decide_eq_false (by linarith)
        simp only [evict_cons_old h, ih htail, List.filter_cons, hd]
        simp
      · have hle : now - t ≤ window := le_of_not_lt h
        have hd : (decide (now - t ≤ window)) = true := decide_eq_true hle
        have hall : ∀ x ∈ ts, (decide (now - x ≤ window)) = true := by
          intro x hx
          exact decide_eq_true (by have := hhead x hx; linarith)
        simp only [evict_cons_keep h, List.filter_cons, hd, if_true]
        rw [List.filter_eq_self.mpr hall]

theorem claim_C4_witness :
    (RateLimiter.allowRun ⟨5, 300⟩ [] [(0:ℚ), 1, 2, 3, 4, 5]).1 =
        [true, true, true, true, true, false] ∧
      (RateLimiter.allow ⟨5, 300⟩ 400
        (RateLimiter.allowRun ⟨5, 300⟩ [] [(0:ℚ), 1, 2, 3, 4, 5]).2).1 = true :=
  (claim_C4 0 1 2 3 4 5 400 (by norm_num) (by norm_num) (by norm_num) (by norm_num)
    (by norm_num) (by norm_num) (by norm_num)).1

/-! ### C3: rejection exactly on `..` segments -/

theorem posixRootOf_eq (s : String) : posixRootOf s = "/" ∨ posixRootOf s = "//" := by
  unfold posixRootOf
  split
  · exact Or.inl rfl
  · exact Or.inr rfl
  · exact Or.inl rfl

theorem normalize_path_ne (P : String) (hP : P ≠ "") :
    normalize_path P =
      if (posixParts (normalizedForm P)).contains ".." then Except.error "Invalid path traversal"
      else Except.ok (normalizedForm P) := by
  unfold normalize_path normalizedForm
  rw [if_neg hP, if_neg hP]

theorem contains_parts_iff (n : String) :
    ((posixParts n).contains ".." = true) ↔ ".." ∈ posixSegments n := by
  unfold posixParts
  rcases posixRootOf_eq n with hr | hr <;>
    simp [hr, List.contains, List.elem_iff]

/-- C3: `normalize_path P` rejects (raises `ValueError`) exactly when the
normalized absolute form of `P` contains a `..` segment; otherwise it returns
that normalized absolute form. -/
theorem claim_C3 (P : String) :
    (normalize_path P = Except.error "Invalid path traversal" ↔
      ".." ∈ posixSegments (normalizedForm P)) ∧
    (".." ∉ posixSegments (normalizedForm P) →
      normalize_path P = Except.ok (normalizedForm P)) := by
  by_cases hP : P = ""
  · subst hP
    have h1 : normalize_path "" = Except.ok "/" := rfl
    have h2 : normalizedForm "" = "/" := rfl
    have h3 : posixSegments "/" = [] := rfl
    rw [h1, h2, h3]
    refine ⟨⟨fun h => ?_, fun h => ?_⟩, fun _ => rfl⟩
    · cases h
    · cases h
  · rw [normalize_path_ne P hP]
    by_cases hc : (posixParts (normalizedForm P)).contains ".." = true
    · rw [if_pos hc]
      have hm := (contains_parts_iff _).mp hc
      exact ⟨⟨fun _ => hm, fun _ => rfl⟩, fun h => absurd hm h⟩
    · rw [if_neg hc]
      have hm : ".." ∉ posixSegments (normalizedForm P) := fun h =>
        hc ((contains_parts_iff _).mpr h)
      refine ⟨⟨fun h => ?_, fun h => absurd h hm⟩, fun _ => rfl⟩
      cases h

theorem claim_C3_witness :
    (normalize_path "/a/../b" = Except.error "Invalid path traversal") ∧
    (normalize_path "a//./c" = Except.ok "/a/c") := by
  constructor
  · exact (claim_C3 "/a/../b").1.mpr (by decide)
  · have h := (claim_C3 "a//./c").2 (by decide)
    have : normalizedForm "a//./c" = "/a/c" := by decide
    rw [this] at h
    exact h

/-! ## Session store (`app/session.py`)

The `itsdangerous` signer is an external collaborator; it is modelled at its
interface boundary by an `unsign : String → Option String` verification
function passed to `get` (`none` models `BadSignature`). The session's
mutable `data` payload plays no role in the store's lookup/expiry logic and
is not modelled. -/

/-- One server-held session record. -/
structure SessionData where
  session_id : String
  created_at : ℚ
  last_access : ℚ
deriving DecidableEq

/-- The server-side session store: signing TTL plus the id-keyed session map
(modelled as an association list with unique keys, like a Python dict). -/
structure SessionStore where
  ttl_seconds : ℚ
  sessions : List (String × SessionData)
deriving DecidableEq

/-- First-match association-list lookup (Python `dict.get`). -/
def assocLookup : List (String × SessionData) → String → Option SessionData
  | [], _ => none
  | kv :: rest, k => if kv.1 = k then some kv.2 else assocLookup rest k

/-- `self._expired(session)`: idle time strictly above the TTL. -/
def SessionStore.expired (store : SessionStore) (now : ℚ) (s : SessionData) : Bool :=
  store.ttl_seconds < now - s.last_access

/-- `SessionStore.get`: `None` for a missing/empty token, a token whose
signature does not verify, or an unknown id; an expired session is evicted
and reported absent; a live session gets `last_access` refreshed and is
returned. The result pairs the returned session with the updated store. -/
def SessionStore.get (store : SessionStore) (unsign : String → Option String) (now : ℚ) :
    Option String → Option SessionData × SessionStore
  | none => (none, store)
  | some tok =>
    if tok = "" then (none, store)
    else
      match unsign tok with
      | none => (none, store)
      | some session_id =>
        match assocLookup store.sessions session_id with
        | none => (none, store)
        | some s =>
          if store.expired now s then
            (none, { store with
              sessions := store.sessions.filter (fun kv => !(kv.1 = session_id : Bool)) })
          else
            let s1 := { s with last_access := now }
            (some s1, { store with
              sessions := store.sessions.map
               (fun kv => if kv.1 = session_id then (kv.1, s1) else kv) })

/-- C5: `get` returns absent (and, being a total function, never raises) when
the token's signature does not verify or the session id is unknown, leaving
the store unchanged; a session whose idle time exceeds the TTL is reported
absent and evicted by that very lookup; a successful lookup returns the
session with `last_access` refreshed to the current time and stores the
refreshed record. -/
theorem claim_C5 (store : SessionStore) (unsign : String → Option String) (now : ℚ)
    (tok : String) (htok : tok ≠ "") :
    (unsign tok = none → store.get unsign now (some tok) = (none, store)) ∧
    (∀ sid, unsign tok = some sid → assocLookup store.sessions sid = none →
      store.get unsign now (some tok) = (none, store)) ∧
    (∀ sid s, unsign tok = some sid → assocLookup store.sessions sid = some s →
      store.ttl_seconds < now - s.last_access →
      store.get unsign now (some tok) =
        (none, { store with
          sessions := store.sessions.filter (fun kv => !(kv.1 = sid : Bool)) })) ∧
    (∀ sid s, unsign tok = some sid → assocLookup store.sessions sid = some s →
      ¬ store.ttl_seconds < now - s.last_access →
      store.get unsign now (some tok) =
        (some { s with last_access := now }, { store with
          sessions := store.sessions.map
            (fun kv => if kv.1 = sid then (kv.1, { s with last_access := now }) else kv) })) := by
  refine ⟨fun hu => ?_, fun sid hu hl => ?_, fun sid s hu hl hexp => ?_,
    fun sid s hu hl hexp => ?_⟩
  · simp [SessionStore.get, if_neg htok, hu]
  · simp [SessionStore.get, if_neg htok, hu, hl]
  · have he : store.expired now s = true := by
      simp [SessionStore.expired, hexp]
    simp [SessionStore.get, if_neg htok, hu, hl, he]
  · have he : store.expired now s = false := by
      simp [SessionStore.expired, hexp]
    simp [SessionStore.get, if_neg htok, hu, hl, he]

/-- A concrete signer model used only to instantiate `claim_C5`: it accepts
exactly the token string `A.sig`, yielding session id `A`. -/
def toyUnsign (t : String) : Option String :=
  if t = "A.sig" then some "A" else none

/-- A concrete store holding the single session `A`, 10 time units old, with
a TTL of 100. -/
def toyStore : SessionStore :=
  { ttl_seconds := 100, sessions := [("A", { session_id := "A", created_at := 0, last_access := 10 })] }

theorem claim_C5_witness :
    (toyStore.get toyUnsign 50 (some "A.sig!") = (none, toyStore)) ∧
    (toyStore.get toyUnsign 500 (some "A.sig") =
      (none, { toyStore with sessions := [] })) ∧
    (toyStore.get toyUnsign 50 (some "A.sig") =
      (some { session_id := "A", created_at := 0, last_access := 50 },
        { toyStore with
          sessions := [("A", { session_id := "A", created_at := 0, last_access := 50 })] })) := by
  have h := claim_C5 toyStore toyUnsign 50 "A.sig!" (by decide)
  have h2 := claim_C5 toyStore toyUnsign 500 "A.sig" (by decide)
  have h3 := claim_C5 toyStore toyUnsign 50 "A.sig" (by decide)
  refine ⟨?_, ?_, ?_⟩
  · exact h.1 rfl
  · have := h2.2.2.1 "A" { session_id := "A", created_at := 0, last_access := 10 }
      rfl rfl (by show toyStore.ttl_seconds < _; norm_num [toyStore])
    simpa [toyStore] using this
  · have := h3.2.2.2 "A" { session_id := "A", created_at := 0, last_access := 10 }
      rfl rfl (by show ¬ toyStore.ttl_seconds < _; norm_num [toyStore])
    simpa [toyStore] using this

/-! ## Process launcher and CLI adapter (`app/process.py`, `app/adapters.py`)

Python exceptions relevant to the adapter layer: `VaultAdapterError` is a
subclass of `RuntimeError`, so an `except VaultAdapterError` handler does
NOT catch a plain `RuntimeError`. -/

/-- The exception taxonomy of the adapter layer. -/
inductive PyErr where
  | vaultAdapterError (msg : String)
  | runtimeError (msg : String)
deriving DecidableEq

/-- Does an `except VaultAdapterError` handler catch this exception? -/
def PyErr.caughtByVaultAdapterError : PyErr → Bool
  | .vaultAdapterError _ => true
  | .runtimeError _ => false

/-- `start_background_process` from `app/process.py`: spawn the command,
wait, poll once; if the poll observes an exit with a non-zero code, raise a
plain `RuntimeError`; otherwise return the (possibly still running) process.
The poll observation is the `Option Int` input: `none` means the process had
not exited by the time of the poll, `some c` that it exited with code `c`. -/
def start_background_process (poll : Option Int) : Except PyErr Unit :=
  match poll with
  | some code =>
    if code ≠ 0 then Except.error (PyErr.runtimeError ("Process failed with code " ++ toString code))
    else Except.ok ()
  | none => Except.ok ()

/-- Observable events of the CLI adapter's mount lifecycle. -/
inductive MountEvent where
  | mkdtemp (dir : String)
  | unlockCmd (dir : String)
  | yieldRoot (dir : String)
  | umountCmd (dir : String)
  | rmdir (dir : String)
deriving DecidableEq

/-- Configuration of the process-backed adapter. -/
structure CLIVaultAdapter where
  vault_path : String
  cli_path : String
  mount_root : String
  mounter : String
  umount_cli_path : String

/-- `CLIVaultAdapter._mount`: place the passphrase in the environment
channel and build the unlock argument vector. Returns the environment
update and the command list exactly as the source constructs them. -/
def CLIVaultAdapter.mountInvocation (a : CLIVaultAdapter) (passphrase : String)
    (mount_dir : String) : List (String × String) × List String :=
  ([("CRYPTOMATOR_PASSWORD", passphrase)],
    [a.cli_path, "unlock",
      "--mountPoint", mount_dir,
      "--password:env", "CRYPTOMATOR_PASSWORD",
      "--mounter", a.mounter,
      a.vault_path])

/-- `CLIVaultAdapter._unmount`: run the unmount command on the mount
directory, then remove the directory. -/
def unmountTrace (d : String) : List MountEvent :=
  [MountEvent.umountCmd d, MountEvent.rmdir d]

/-- `CLIVaultAdapter.open` as a context manager run to completion: create the
private mount directory, `_mount` (whose outcome is decided by the unlock
process poll), yield the directory to the body, and in the `finally` block
always `_unmount`. Returns the overall outcome and the event trace. -/
def CLIVaultAdapter.openRun {α : Type} (a : CLIVaultAdapter) (passphrase : String)
    (mount_dir : String) (poll : Option Int) (body : String → Except PyErr α)
    : Except PyErr α × List MountEvent :=
  match start_background_process poll with
  | Except.error e =>
    (Except.error e,
      [MountEvent.mkdtemp mount_dir, MountEvent.unlockCmd mount_dir] ++ unmountTrace mount_dir)
  | Except.ok _ =>
    (body mount_dir,
      [MountEvent.mkdtemp mount_dir, MountEvent.unlockCmd mount_dir,
        MountEvent.yieldRoot mount_dir] ++ unmountTrace mount_dir)

/-- Directories created by the run that were never removed: nothing may
remain after `open` finishes, on any path. -/
def registeredDirs (trace : List MountEvent) : List String :=
  (trace.filterMap (fun e => match e with | MountEvent.mkdtemp d => some d | _ => none)).filter
    (fun d => !(trace.contains (MountEvent.rmdir d)))

/-- C6: the argument vector handed to the external unlock command is built
from the adapter configuration and the mount directory only — it is
identical for any two passphrases — and the passphrase travels solely
through the environment channel (`CRYPTOMATOR_PASSWORD`). -/
theorem claim_C6 (a : CLIVaultAdapter) (mount_dir : String) (p1 p2 : String) :
    ((a.mountInvocation p1 mount_dir).2 = (a.mountInvocation p2 mount_dir).2) ∧
    (∀ p, (a.mountInvocation p mount_dir).1 = [("CRYPTOMATOR_PASSWORD", p)]) :=
  ⟨rfl, fun _ => rfl⟩

/-- C1: if the unlock command's poll reports a non-zero exit, `open` ends in
an error without ever yielding a root and leaves no mount directory
registered (the directory is removed inside the same run); whenever `open`
yields a root, the unmount command runs exactly once on that mount
directory — also when the body of the `open` block raises. -/
theorem claim_C1 {α : Type} (a : CLIVaultAdapter) (p mount_dir : String) (poll : Option Int)
    (body : String → Except PyErr α) :
    (∀ c : Int, poll = some c → c ≠ 0 →
      (a.openRun p mount_dir poll body).1 =
          Except.error (PyErr.runtimeError ("Process failed with code " ++ toString c)) ∧
        MountEvent.yieldRoot mount_dir ∉ (a.openRun p mount_dir poll body).2 ∧
        (a.openRun p mount_dir poll body).2.count (MountEvent.umountCmd mount_dir) = 1 ∧
        registeredDirs (a.openRun p mount_dir poll body).2 = []) ∧
    (MountEvent.yieldRoot mount_dir ∈ (a.openRun p mount_dir poll body).2 →
      (a.openRun p mount_dir poll body).2.count (MountEvent.umountCmd mount_dir) = 1) ∧
    (∀ e, body mount_dir = Except.error e →
      MountEvent.yieldRoot mount_dir ∈ (a.openRun p mount_dir poll body).2 →
      (a.openRun p mount_dir poll body).1 = Except.error e ∧
        (a.openRun p mount_dir poll body).2.count (MountEvent.umountCmd mount_dir) = 1) := by
  refine ⟨fun c hpoll hc => ?_, fun hy => ?_, fun e hbody hy => ?_⟩
  · subst hpoll
    refine ⟨?_, ?_, ?_, ?_⟩
    · simp [CLIVaultAdapter.openRun, start_background_process, hc]
    · simp [CLIVaultAdapter.openRun, start_background_process, hc, unmountTrace]
    · simp [CLIVaultAdapter.openRun, start_background_process, hc, unmountTrace,
        List.count_cons]
    · simp [CLIVaultAdapter.openRun, start_background_process, hc, unmountTrace,
        registeredDirs, List.contains, List.elem_iff]
  · rcases hok : start_background_process poll with he | hu
    · exfalso
      unfold CLIVaultAdapter.openRun at hy
      rw [hok] at hy
      simp [unmountTrace] at hy
    · unfold CLIVaultAdapter.openRun
      rw [hok]
      simp [unmountTrace, List.count_cons]
  · rcases hok : start_background_process poll with he | hu
    · exfalso
      unfold CLIVaultAdapter.openRun at hy
      rw [hok] at hy
      simp [unmountTrace] at hy
    · unfold CLIVaultAdapter.openRun
      rw [hok]
      simp [unmountTrace, List.count_cons, hbody]

/-- An arbitrary concrete adapter configuration used by the witnesses. -/
def cliA : CLIVaultAdapter :=
  { vault_path := "/vaults/demo.cmv"
    cli_path := "/usr/bin/cryptomator-cli"
    mount_root := "/tmp/mounts"
    mounter := "org.cryptomator.frontend.fuse.mount.LinuxFuseMountProvider"
    umount_cli_path := "/usr/bin/umount" }

theorem claim_C1_witness :
    ((cliA.openRun "pw" "/tmp/mounts/vault-x" (some 2) (fun _ => Except.ok (0 : Nat))).1 =
        Except.error (PyErr.runtimeError ("Process failed with code " ++ toString (2 : Int))) ∧
      MountEvent.yieldRoot "/tmp/mounts/vault-x" ∉
        (cliA.openRun "pw" "/tmp/mounts/vault-x" (some 2) (fun _ => Except.ok (0 : Nat))).2 ∧
      (cliA.openRun "pw" "/tmp/mounts/vault-x" (some 2) (fun _ => Except.ok (0 : Nat))).2.count
          (MountEvent.umountCmd "/tmp/mounts/vault-x") = 1 ∧
      registeredDirs
        (cliA.openRun "pw" "/tmp/mounts/vault-x" (some 2) (fun _ => Except.ok (0 : Nat))).2 = []) ∧
    ((cliA.openRun "pw" "/tmp/mounts/vault-y" none
          (fun _ => (Except.error (PyErr.vaultAdapterError "boom") : Except PyErr Nat))).1 =
        Except.error (PyErr.vaultAdapterError "boom") ∧
      (cliA.openRun "pw" "/tmp/mounts/vault-y" none
          (fun _ => (Except.error (PyErr.vaultAdapterError "boom") : Except PyErr Nat))).2.count
          (MountEvent.umountCmd "/tmp/mounts/vault-y") = 1) := by
  constructor
  · exact (claim_C1 cliA "pw" "/tmp/mounts/vault-x" (some 2)
      (fun _ => Except.ok (0 : Nat))).1 2 rfl (by decide)
  · exact (claim_C1 cliA "pw" "/tmp/mounts/vault-y" none
      (fun _ => (Except.error (PyErr.vaultAdapterError "boom") : Except PyErr Nat))).2.2
      (PyErr.vaultAdapterError "boom") rfl (by decide)

/-! ## Python code-point string comparison and stable sorting

`str.lower()` and string `<=` are modelled over `List Char` (code points);
`list.sort(key=...)` is modelled by a stable insertion sort. -/

/-- Python `str.lower` restricted to its ASCII action on one code point. -/
def pyCharLower (c : Char) : Char :=
  if 65 ≤ c.toNat ∧ c.toNat ≤ 90 then Char.ofNat (c.toNat + 32) else c

/-- `name.lower()` as a code-point list. -/
def pyStrLower (s : String) : List Char := s.data.map pyCharLower

/-- Python lexicographic `<=` on code-point lists. -/
def charListLe : List Char → List Char → Bool
  | [], _ => true
  | _ :: _, [] => false
  | a :: as, b :: bs =>
    if a.toNat < b.toNat then true
    else if b.toNat < a.toNat then false
    else charListLe as bs

theorem charListLe_trans : ∀ (as bs cs : List Char),
    charListLe as bs = true → charListLe bs cs = true → charListLe as cs = true
  | [], _, _, _, _ => rfl
  | _ :: _, [], _, h1, _ => by simp [charListLe] at h1
  | _ :: _, _ :: _, [], _, h2 => by simp [charListLe] at h2
  | a :: as, b :: bs, c :: cs, h1, h2 => by
    simp only [charListLe] at h1 h2 ⊢
    rcases Nat.lt_trichotomy a.toNat b.toNat with hab | hab | hab <;>
      rcases Nat.lt_trichotomy b.toNat c.toNat with hbc | hbc | hbc
    · rw [if_pos (by omega)]
    · rw [if_pos (by omega)]
    · rw [if_neg (by omega), if_pos (by omega)] at h2
      exact absurd h2 (by simp)
    · rw [if_pos (by omega)]
    · rw [if_neg (by omega), if_neg (by omega)]
      rw [if_neg (by omega), if_neg (by omega)] at h1
      rw [if_neg (by omega), if_neg (by omega)] at h2
      exact charListLe_trans as bs cs h1 h2
    · rw [if_neg (by omega), if_pos (by omega)] at h2
      exact absurd h2 (by simp)
    · rw [if_neg (by omega), if_pos (by omega)] at h1
      exact absurd h1 (by simp)
    · rw [if_neg (by omega), if_pos (by omega)] at h1
      exact absurd h1 (by simp)
    · rw [if_neg (by omega), if_pos (by omega)] at h1
      exact absurd h1 (by simp)

theorem charListLe_total : ∀ (as bs : List Char),
    charListLe as bs = true ∨ charListLe bs as = true
  | [], _ => Or.inl rfl
  | _ :: _, [] => Or.inr rfl
  | a :: as, b :: bs => by
    simp only [charListLe]
    rcases Nat.lt_trichotomy a.toNat b.toNat with h | h | h
    · left
      rw [if_pos h]
    · rw [if_neg (by omega), if_neg (by omega), if_neg (by omega), if_neg (by omega)]
      exact charListLe_total as bs
    · right
      rw [if_pos h]

/-- Comparison by a numeric rank, ties broken by the case-folded name: the
Python sort key `(not is_dir, name.lower())` compared as a tuple. -/
def rankNameLe {α : Type} (rank : α → Nat) (name : α → String) (a b : α) : Bool :=
  if rank a < rank b then true
  else if rank b < rank a then false
  else charListLe (pyStrLower (name a)) (pyStrLower (name b))

theorem rankNameLe_trans {α : Type} (rank : α → Nat) (name : α → String) (a b c : α)
    (h1 : rankNameLe rank name a b = true) (h2 : rankNameLe rank name b c = true) :
    rankNameLe rank name a c = true := by
  unfold rankNameLe at h1 h2 ⊢
  rcases Nat.lt_trichotomy (rank a) (rank b) with hab | hab | hab <;>
    rcases Nat.lt_trichotomy (rank b) (rank c) with hbc | hbc | hbc
  · rw [if_pos (by omega)]
  · rw [if_pos (by omega)]
  · rw [if_neg (by omega), if_pos (by omega)] at h2
    exact absurd h2 (by simp)
  · rw [if_pos (by omega)]
  · rw [if_neg (by omega), if_neg (by omega)]
    rw [if_neg (by omega), if_neg (by omega)] at h1
    rw [if_neg (by omega), if_neg (by omega)] at h2
    exact charListLe_trans _ _ _ h1 h2
  · rw [if_neg (by omega), if_pos (by omega)] at h2
    exact absurd h2 (by simp)
  · rw [if_neg (by omega), if_pos (by omega)] at h1
    exact absurd h1 (by simp)
  · rw [if_neg (by omega), if_pos (by omega)] at h1
    exact absurd h1 (by simp)
  · rw [if_neg (by omega), if_pos (by omega)] at h1
    exact absurd h1 (by simp)

theorem rankNameLe_total {α : Type} (rank : α → Nat) (name : α → String) (a b : α) :
    rankNameLe rank name a b = true ∨ rankNameLe rank name b a = true := by
  unfold rankNameLe
  rcases Nat.lt_trichotomy (rank a) (rank b) with h | h | h
  · left
    rw [if_pos h]
  · rw [if_neg (by omega), if_neg (by omega), if_neg (by omega), if_neg (by omega)]
    exact charListLe_total _ _
  · right
    rw [if_pos h]

/-- Insert an element after every already-placed element that compares
less-or-equal: inserting left-to-right this way is Python's stable sort. -/
def pyInsort {α : Type} (le : α → α → Bool) : List α → α → List α
  | [], x => [x]
  | y :: ys, x => if le y x then y :: pyInsort le ys x else x :: y :: ys

/-- Python `list.sort` (stable, comparison by `le`). -/
def pySort {α : Type} (le : α → α → Bool) (l : List α) : List α :=
  l.foldl (pyInsort le) []

theorem pyInsort_perm {α : Type} (le : α → α → Bool) (acc : List α) (x : α) :
    List.Perm (pyInsort le acc x) (x :: acc) := by
  induction acc with
  | nil => simp [pyInsort]
  | cons y ys ih =>
    simp only [pyInsort]
    by_cases h : le y x = true
    · rw [if_pos h]
      exact (ih.cons y).trans (List.Perm.swap x y ys)
    · rw [if_neg h]

theorem foldl_pyInsort_perm {α : Type} (le : α → α → Bool) (l : List α) :
    ∀ acc : List α, List.Perm (l.foldl (pyInsort le) acc) (acc ++ l) := by
  induction l with
  | nil => intro acc; simp
  | cons x xs ih =>
    intro acc
    have h1 := ih (pyInsort le acc x)
    have h2 : List.Perm (pyInsort le acc x ++ xs) ((x :: acc) ++ xs) :=
      (pyInsort_perm le acc x).append_right xs
    have h3 : List.Perm ((x :: acc) ++ xs) (acc ++ x :: xs) := by
      simpa using List.perm_middle.symm
    exact (h1.trans h2).trans h3

theorem pySort_perm {α : Type} (le : α → α → Bool) (l : List α) :
    List.Perm (pySort le l) l := by
  simpa [pySort] using foldl_pyInsort_perm le l []

theorem pyInsort_sorted {α : Type} (le : α → α → Bool)
    (htrans : ∀ a b c, le a b = true → le b c = true → le a c = true)
    (htotal : ∀ a b, le a b = true ∨ le b a = true)
    (x : α) (acc : List α) (hacc : acc.Pairwise (fun a b => le a b = true)) :
    (pyInsort le acc x).Pairwise (fun a b => le a b = true) := by
  induction acc with
  | nil => simp [pyInsort]
  | cons y ys ih =>
    rcases List.pairwise_cons.mp hacc with ⟨hy, hys⟩
    simp only [pyInsort]
    by_cases h : le y x = true
    · rw [if_pos h]
      refine List.pairwise_cons.mpr ⟨?_, ih hys⟩
      intro z hz
      have hz2 := (pyInsort_perm le ys x).mem_iff.mp hz
      rcases List.mem_cons.mp hz2 with rfl | hz3
      · exact h
      · exact hy z hz3
    · rw [if_neg h]
      have hxy : le x y = true := by
        rcases htotal x y with h1 | h1
        · exact h1
        · exact absurd h1 h
      refine List.pairwise_cons.mpr ⟨?_, hacc⟩
      intro z hz
      rcases List.mem_cons.mp hz with rfl | hz3
      · exact hxy
      · exact htrans x y z hxy (hy z hz3)

theorem pySort_sorted {α : Type} (le : α → α → Bool)
    (htrans : ∀ a b c, le a b = true → le b c = true → le a c = true)
    (htotal : ∀ a b, le a b = true ∨ le b a = true) (l : List α) :
    (pySort le l).Pairwise (fun a b => le a b = true) := by
  suffices h : ∀ acc : List α, acc.Pairwise (fun a b => le a b = true) →
      (l.foldl (pyInsort le) acc).Pairwise (fun a b => le a b = true) by
    exact h [] (by simp)
  induction l with
  | nil => intro acc hacc; simpa using hacc
  | cons x xs ih =>
    intro acc hacc
    exact ih (pyInsort le acc x) (pyInsort_sorted le htrans htotal x acc hacc)

/-! ## Directory entries and the session index (`app/adapters.py`, `app/main.py`)

Absolute paths are segment lists; the slash-joined strings of the source
(`f"{folder.rstrip(chr(47))}/{name}"`) correspond to appending one segment. -/

/-- A directory listing entry (`DirEntry` dataclass). -/
structure DirEntry where
  name : String
  path : List String
  is_dir : Bool
  size : Option Nat
deriving DecidableEq

/-- The sort rank of an entry: Python's key starts with `not is_dir`. -/
def entryRank (e : DirEntry) : Nat := if e.is_dir then 0 else 1

/-- The listing order: directories first, then case-insensitive name. -/
def entryLe : DirEntry → DirEntry → Bool :=
  rankNameLe entryRank DirEntry.name

/-- The session index: absolute path of a directory, mapped to its direct
children, insertion-ordered like a Python dict. -/
abbrev Index := List (List String × List DirEntry)

/-- `dict.get` / `dict[...]` read: first (unique) matching key. -/
def indexLookup : Index → List String → Option (List DirEntry)
  | [], _ => none
  | kv :: rest, p => if kv.1 = p then some kv.2 else indexLookup rest p

/-- `dict[...] = value` write: update the existing key in place, or append
the new key at the end (Python dicts preserve insertion order). -/
def indexStore (idx : Index) (p : List String) (es : List DirEntry) : Index :=
  if (indexLookup idx p).isSome then
    idx.map (fun kv => if kv.1 = p then (kv.1, es) else kv)
  else idx ++ [(p, es)]

theorem indexLookup_store_self (idx : Index) (p : List String) (es : List DirEntry) :
    indexLookup (indexStore idx p es) p = some es := by
  unfold indexStore
  by_cases h : (indexLookup idx p).isSome
  · rw [if_pos h]
    induction idx with
    | nil => simp [indexLookup] at h
    | cons kv rest ih =>
      by_cases hk : kv.1 = p
      · simp [indexLookup, hk]
      · simp only [indexLookup, if_neg hk] at h
        simp only [List.map_cons, indexLookup, if_neg hk]
        exact ih h
  · rw [if_neg h]
    induction idx with
    | nil => simp [indexLookup]
    | cons kv rest ih =>
      by_cases hk : kv.1 = p
      · simp [indexLookup, hk] at h
      · simp only [indexLookup, if_neg hk] at h
        simp only [List.cons_append, indexLookup, if_neg hk]
        exact ih h

theorem indexLookup_map_update (idx : Index) (p : List String) (es : List DirEntry)
    (q : List String) (hq : q ≠ p) :
    indexLookup (idx.map (fun kv => if kv.1 = p then (kv.1, es) else kv)) q =
      indexLookup idx q := by
  induction idx with
  | nil => simp [indexLookup]
  | cons kv rest ih =>
    by_cases hk : kv.1 = p
    · have hkq : ¬ kv.1 = q := fun he => hq (he.symm.trans hk)
      simp only [List.map_cons, if_pos hk, indexLookup, if_neg hkq]
      exact ih
    · simp only [List.map_cons, if_neg hk, indexLookup]
      by_cases hkq : kv.1 = q
      · simp [hkq]
      · simp only [if_neg hkq]
        exact ih

theorem indexLookup_append_other (idx : Index) (p : List String) (es : List DirEntry)
    (q : List String) (hq : q ≠ p) :
    indexLookup (idx ++ [(p, es)]) q = indexLookup idx q := by
  induction idx with
  | nil =>
    simp only [List.nil_append, indexLookup]
    rw [if_neg (fun he : p = q => hq he.symm)]
  | cons kv rest ih =>
    simp only [List.cons_append, indexLookup]
    by_cases hkq : kv.1 = q
    · simp [hkq]
    · simp only [if_neg hkq]
      exact ih

theorem indexLookup_store_other (idx : Index) (p : List String) (es : List DirEntry)
    (q : List String) (hq : q ≠ p) :
    indexLookup (indexStore idx p es) q = indexLookup idx q := by
  unfold indexStore
  by_cases h : (indexLookup idx p).isSome
  · rw [if_pos h]
    exact indexLookup_map_update idx p es q hq
  · rw [if_neg h]
    exact indexLookup_append_other idx p es q hq

theorem indexStore_keys_isSome (idx : Index) (p : List String) (es : List DirEntry)
    (h : (indexLookup idx p).isSome) :
    (indexStore idx p es).map Prod.fst = idx.map Prod.fst := by
  unfold indexStore
  rw [if_pos h, List.map_map]
  congr 1
  funext kv
  by_cases hk : kv.1 = p <;> simp [hk]

theorem indexStore_keys_none (idx : Index) (p : List String) (es : List DirEntry)
    (h : ¬ (indexLookup idx p).isSome) :
    (indexStore idx p es).map Prod.fst = idx.map Prod.fst ++ [p] := by
  unfold indexStore
  rw [if_neg h]
  simp

/-- `update_index_after_upload` from `app/main.py`: when the session holds a
(non-empty) index, append a new file entry to the target folder's listing
and re-sort it. -/
def update_index_after_upload (idx : Option Index) (folder_path : List String)
    (filename : String) : Option Index :=
  match idx with
  | none => none
  | some i =>
    if i = [] then some i
    else
      let new_entry : DirEntry :=
        { name := filename, path := folder_path ++ [filename], is_dir := false, size := none }
      let entries := (indexLookup i folder_path).getD []
      some (indexStore i folder_path (pySort entryLe (entries ++ [new_entry])))

/-- `update_index_after_mkdir` from `app/main.py`: when the session holds a
(non-empty) index, append a new directory entry to the parent's listing,
re-sort it, and `setdefault` the new directory's own empty listing. -/
def update_index_after_mkdir (idx : Option Index) (folder_path : List String)
    (folder_name : String) : Option Index :=
  match idx with
  | none => none
  | some i =>
    if i = [] then some i
    else
      let new_entry : DirEntry :=
        { name := folder_name, path := folder_path ++ [folder_name], is_dir := true, size := none }
      let entries := (indexLookup i folder_path).getD []
      let i1 := indexStore i folder_path (pySort entryLe (entries ++ [new_entry]))
      some (if (indexLookup i1 new_entry.path).isSome then i1 else i1 ++ [(new_entry.path, [])])

/-- `refresh_index` from `app/main.py`: when the session holds a (non-empty)
index, rebuild it in full; the handler catches `VaultAdapterError` only, so
a `VaultAdapterError` clears the index to absent while any other exception
(such as the plain `RuntimeError` raised by `start_background_process`)
propagates and leaves the stale index in place. The rebuild outcome is the
`Except` input; the result pairs the request outcome with the session's
index afterwards. -/
def refresh_index (idx : Option Index) (rebuild : Except PyErr Index) :
    Except PyErr Unit × Option Index :=
  match idx with
  | none => (Except.ok (), none)
  | some i =>
    if i = [] then (Except.ok (), some i)
    else
      match rebuild with
      | Except.ok newIdx => (Except.ok (), some newIdx)
      | Except.error e =>
        if e.caughtByVaultAdapterError then (Except.ok (), none)
        else (Except.error e, some i)

/-- The `try ... except VaultAdapterError: return []` wrapper of the
fallback mount-and-list. -/
def listFallback (fallback : Except PyErr (List DirEntry)) : Except PyErr (List DirEntry) :=
  match fallback with
  | Except.ok es => Except.ok es
  | Except.error e =>
    if e.caughtByVaultAdapterError then Except.ok [] else Except.error e

/-- `list_entries` from `app/main.py`: serve from the index when the session
holds a non-empty one; otherwise mount and list, turning a
`VaultAdapterError` into an empty listing while any other exception
propagates. The per-request mount-and-list outcome is the `fallback`
input. -/
def list_entries (idx : Option Index) (path : List String)
    (fallback : Except PyErr (List DirEntry)) : Except PyErr (List DirEntry) :=
  match idx with
  | some i =>
    if i = [] then listFallback fallback
    else Except.ok ((indexLookup i path).getD [])
  | none => listFallback fallback

theorem indexLookup_append_self (idx : Index) (p : List String) (es : List DirEntry)
    (h : indexLookup idx p = none) :
    indexLookup (idx ++ [(p, es)]) p = some es := by
  induction idx with
  | nil => simp [indexLookup]
  | cons kv rest ih =>
    by_cases hk : kv.1 = p
    · simp [indexLookup, hk] at h
    · simp only [indexLookup, if_neg hk] at h
      simp only [List.cons_append, indexLookup, if_neg hk]
      exact ih h

theorem entryLe_trans (a b c : DirEntry) (h1 : entryLe a b = true) (h2 : entryLe b c = true) :
    entryLe a c = true :=
  rankNameLe_trans entryRank DirEntry.name a b c h1 h2

theorem entryLe_total (a b : DirEntry) : entryLe a b = true ∨ entryLe b a = true :=
  rankNameLe_total entryRank DirEntry.name a b

/-- C8: for a session holding a (non-empty) index, after an upload of file
`f` into directory `dir` the index's listing of `dir` is a permutation of
the old listing plus exactly one new entry, named `f` with `is_dir = false`
(so its length grows by exactly one), the listing is sorted
directories-first then case-insensitively by name, and every other key of
the index is unchanged. -/
theorem claim_C8 (i : Index) (hne : i ≠ []) (dir : List String) (f : String) (i2 : Index)
    (hu : update_index_after_upload (some i) dir f = some i2) :
    List.Perm ((indexLookup i2 dir).getD [])
      ({ name := f, path := dir ++ [f], is_dir := false, size := none } ::
        (indexLookup i dir).getD []) ∧
    ((indexLookup i2 dir).getD []).Pairwise (fun a b => entryLe a b = true) ∧
    (∀ q, q ≠ dir → indexLookup i2 q = indexLookup i q) ∧
    ((indexLookup i2 dir).getD []).length = ((indexLookup i dir).getD []).length + 1 := by
  simp only [update_index_after_upload, if_neg hne, Option.some.injEq] at hu
  subst hu
  set newE : DirEntry := { name := f, path := dir ++ [f], is_dir := false, size := none }
    with hnewE
  set old : List DirEntry := (indexLookup i dir).getD [] with hold
  have hl : indexLookup (indexStore i dir (pySort entryLe (old ++ [newE]))) dir =
      some (pySort entryLe (old ++ [newE])) := indexLookup_store_self _ _ _
  have hperm : List.Perm (pySort entryLe (old ++ [newE])) (newE :: old) :=
    (pySort_perm entryLe (old ++ [newE])).trans (List.perm_append_singleton newE old)
  refine ⟨?_, ?_, ?_, ?_⟩
  · rw [hl]
    exact hperm
  · rw [hl]
    exact pySort_sorted entryLe entryLe_trans entryLe_total (old ++ [newE])
  · intro q hq
    exact indexLookup_store_other i dir _ q hq
  · rw [hl]
    simpa using hperm.length_eq

theorem claim_C8_witness :
    List.Perm
      ((indexLookup
          [([], [{ name := "a.txt", path := ["a.txt"], is_dir := false, size := none }])]
          []).getD [])
      ({ name := "a.txt", path := ["a.txt"], is_dir := false, size := none } ::
        (indexLookup [([], [])] []).getD []) ∧
    ((indexLookup
        [([], [{ name := "a.txt", path := ["a.txt"], is_dir := false, size := none }])]
        []).getD []).Pairwise (fun a b => entryLe a b = true) ∧
    ((indexLookup
        [([], [{ name := "a.txt", path := ["a.txt"], is_dir := false, size := none }])]
        []).getD []).length = ((indexLookup [([], [])] []).getD []).length + 1 := by
  have h := claim_C8 [([], [])] (by simp) [] "a.txt"
    [([], [{ name := "a.txt", path := ["a.txt"], is_dir := false, size := none }])] rfl
  exact ⟨h.1, h.2.1, h.2.2.2⟩

/-- A stale index used to refute C9 as stated: the index already holds a
non-empty listing for `/a` even though `mkdir` of `a` under `/` just
succeeded on disk (the index had diverged from the vault). -/
def staleIndexC9 : Index :=
  [([], [{ name := "a", path := ["a"], is_dir := true, size := none }]),
    (["a"], [{ name := "x", path := ["a", "x"], is_dir := false, size := none }])]

theorem claim_C9_counterexample :
    (update_index_after_mkdir (some staleIndexC9) [] "a").bind
        (fun i2 => indexLookup i2 ["a"]) =
      some [{ name := "x", path := ["a", "x"], is_dir := false, size := none }] ∧
    some [{ name := "x", path := ["a", "x"], is_dir := false, size := none }] ≠
      some ([] : List DirEntry) := by
  refine ⟨rfl, ?_⟩
  simp

/-- C9 (amended): for a session holding a (non-empty) index, after a
successful mkdir of `sub` under `dir`, provided the path `dir ++ [sub]` was
not already a key of the index, the index maps the new path to the empty
sequence, `dir`'s listing gains exactly the new directory entry and is
sorted directories-first then case-insensitively by name, and every other
key is unchanged. (If the path was already a key, `setdefault` keeps the
existing listing.) -/
theorem claim_C9 (i : Index) (hne : i ≠ []) (dir : List String) (sub : String) (i2 : Index)
    (hfresh : indexLookup i (dir ++ [sub]) = none)
    (hu : update_index_after_mkdir (some i) dir sub = some i2) :
    indexLookup i2 (dir ++ [sub]) = some [] ∧
    List.Perm ((indexLookup i2 dir).getD [])
      ({ name := sub, path := dir ++ [sub], is_dir := true, size := none } ::
        (indexLookup i dir).getD []) ∧
    ((indexLookup i2 dir).getD []).Pairwise (fun a b => entryLe a b = true) ∧
    (∀ q, q ≠ dir → q ≠ dir ++ [sub] → indexLookup i2 q = indexLookup i q) := by
  have hdirne : dir ≠ dir ++ [sub] := by
    intro h
    have := congrArg List.length h
    simp at this
  simp only [update_index_after_mkdir, if_neg hne] at hu
  set newE : DirEntry := { name := sub, path := dir ++ [sub], is_dir := true, size := none }
    with hnewE
  set old : List DirEntry := (indexLookup i dir).getD [] with hold
  set i1 : Index := indexStore i dir (pySort entryLe (old ++ [newE])) with hi1
  have hl1 : indexLookup i1 (dir ++ [sub]) = none := by
    rw [hi1, indexLookup_store_other i dir _ _ (fun h => hdirne h.symm)]
    exact hfresh
  have hnotSome : ¬ (indexLookup i1 (dir ++ [sub])).isSome := by
    rw [hl1]
    simp
  rw [if_neg hnotSome] at hu
  simp only [Option.some.injEq] at hu
  subst hu
  have hstore : indexLookup i1 dir = some (pySort entryLe (old ++ [newE])) :=
    indexLookup_store_self _ _ _
  have hperm : List.Perm (pySort entryLe (old ++ [newE])) (newE :: old) :=
    (pySort_perm entryLe (old ++ [newE])).trans (List.perm_append_singleton newE old)
  refine ⟨?_, ?_, ?_, ?_⟩
  · exact indexLookup_append_self i1 (dir ++ [sub]) [] hl1
  · rw [indexLookup_append_other i1 (dir ++ [sub]) [] dir hdirne, hstore]
    exact hperm
  · rw [indexLookup_append_other i1 (dir ++ [sub]) [] dir hdirne, hstore]
    exact pySort_sorted entryLe entryLe_trans entryLe_total (old ++ [newE])
  · intro q hq hq2
    rw [indexLookup_append_other i1 (dir ++ [sub]) [] q hq2, hi1,
      indexLookup_store_other i dir _ q hq]

theorem claim_C9_witness :
    indexLookup
        [([], [{ name := "docs", path := ["docs"], is_dir := true, size := none }]),
          (["docs"], [])]
        ["docs"] = some [] ∧
    List.Perm
      ((indexLookup
          [([], [{ name := "docs", path := ["docs"], is_dir := true, size := none }]),
            (["docs"], [])] []).getD [])
      ({ name := "docs", path := ["docs"], is_dir := true, size := none } ::
        (indexLookup [([], [])] []).getD []) ∧
    ((indexLookup
        [([], [{ name := "docs", path := ["docs"], is_dir := true, size := none }]),
          (["docs"], [])] []).getD []).Pairwise (fun a b => entryLe a b = true) := by
  have h := claim_C9 [([], [])] (by simp) [] "docs"
    [([], [{ name := "docs", path := ["docs"], is_dir := true, size := none }]),
      (["docs"], [])] rfl rfl
  exact ⟨h.1, h.2.1, h.2.2.1⟩

/-- A concrete non-empty index standing for the pre-operation snapshot. -/
def staleIndexC2 : Index := [([], [])]

/-- C2 (code bug): when the rebuild fails with `VaultAdapterError`,
`refresh_index` does clear the session's index to absent; but when the
rebuild fails because the CLI unlock process reports a non-zero exit, the
raised exception is a plain `RuntimeError` which `except VaultAdapterError`
does not catch, so the exception propagates and the session keeps the stale
pre-operation snapshot — contradicting the claim that the index is never
left worse than absent. -/
theorem claim_C2 :
    (refresh_index (some staleIndexC2) (Except.error (PyErr.vaultAdapterError "unlock failed")) =
        (Except.ok (), none)) ∧
    (refresh_index (some staleIndexC2)
        ((cliA.openRun "pw" "/tmp/mounts/vault-z" (some 1)
          (fun _ => Except.ok ([] : Index))).1) =
      (Except.error (PyErr.runtimeError ("Process failed with code " ++ toString (1 : Int))),
        some staleIndexC2)) :=
  ⟨rfl, rfl⟩

/-! ## The mounted vault tree and `build_index` (`app/adapters.py`)

A mounted vault is a finite tree of files (with sizes) and directories.
`list_dir` resolves a path against the tree and returns the sorted child
entries; `build_index` walks every reachable directory with an explicit
stack, exactly as the source's `while stack` loop. -/

/-- A vault filesystem tree. -/
inductive FSTree where
  | file (size : Nat)
  | dir (children : List (String × FSTree))

mutual

/-- Number of nodes in the tree (used as loop fuel / termination measure). -/
def FSTree.nodeCount : FSTree → Nat
  | .file _ => 1
  | .dir cs => 1 + FSTree.nodeCountChildren cs

def FSTree.nodeCountChildren : List (String × FSTree) → Nat
  | [] => 0
  | c :: cs => c.2.nodeCount + FSTree.nodeCountChildren cs

end

/-- Find the child of the given name (filesystem name resolution). -/
def childLookup (n : String) : List (String × FSTree) → Option FSTree
  | [] => none
  | c :: cs => if c.1 = n then some c.2 else childLookup n cs

/-- Resolve a segment path against the tree (`root / relative_path`). -/
def FSTree.resolve : FSTree → List String → Option FSTree
  | t, [] => some t
  | FSTree.file _, _ :: _ => none
  | FSTree.dir cs, n :: rest =>
    match childLookup n cs with
    | none => none
    | some c => FSTree.resolve c rest

mutual

/-- Well-formed tree: within each directory the child names are distinct
(as on a real filesystem). -/
def FSTree.wfb : FSTree → Bool
  | .file _ => true
  | .dir cs => decide ((cs.map Prod.fst).Nodup) && FSTree.wfbChildren cs

def FSTree.wfbChildren : List (String × FSTree) → Bool
  | [] => true
  | c :: cs => c.2.wfb && FSTree.wfbChildren cs

end

mutual

/-- The absolute paths of all directories reachable from the node placed at
path `p` (the node itself included when it is a directory). -/
def FSTree.reachableDirs : FSTree → List String → List (List String)
  | .file _, _ => []
  | .dir cs, p => p :: FSTree.reachableDirsChildren cs p

def FSTree.reachableDirsChildren : List (String × FSTree) → List String → List (List String)
  | [], _ => []
  | c :: cs, p => c.2.reachableDirs (p ++ [c.1]) ++ FSTree.reachableDirsChildren cs p

end

/-- `entry.is_dir()` of a raw child. -/
def childIsDir : FSTree → Bool
  | .file _ => false
  | .dir _ => true

/-- Sort rank of a raw child (`not item.is_dir()`). -/
def childRank (c : String × FSTree) : Nat := if childIsDir c.2 then 0 else 1

/-- The `sorted(target.iterdir(), key=...)` order. -/
def childLe : (String × FSTree) → (String × FSTree) → Bool :=
  rankNameLe childRank Prod.fst

/-- Build the `DirEntry` for one child of the directory at `relPath`. -/
def mkEntry (relPath : List String) (c : String × FSTree) : DirEntry :=
  { name := c.1
    path := relPath ++ [c.1]
    is_dir := childIsDir c.2
    size := match c.2 with | FSTree.file n => some n | FSTree.dir _ => none }

/-- `VaultAdapter.list_dir`: raise `VaultAdapterError` when the path does not
exist; list and sort the children otherwise (iterating a file raises a
non-`VaultAdapterError` exception). -/
def listDir (root : FSTree) (relPath : List String) : Except PyErr (List DirEntry) :=
  match root.resolve relPath with
  | none => Except.error (PyErr.vaultAdapterError "Path does not exist")
  | some (FSTree.file _) => Except.error (PyErr.runtimeError "Not a directory")
  | some (FSTree.dir cs) => Except.ok ((pySort childLe cs).map (mkEntry relPath))

/-- The `while stack:` loop of `build_index`: pop the last entry, list it,
record its children under its path, push its subdirectories. `none` means
the fuel ran out (never happens with `nodeCount` fuel on a well-formed
tree). -/
def buildIndexLoop (root : FSTree) : Nat → List DirEntry → Index → Option (Except PyErr Index)
  | 0, _, _ => none
  | _ + 1, [], index => some (Except.ok index)
  | fuel + 1, entry :: rest, index =>
    match listDir root entry.path with
    | Except.error e => some (Except.error e)
    | Except.ok children =>
      buildIndexLoop root fuel
        ((children.filter (fun c => c.is_dir)).reverse ++ rest)
        (indexStore index entry.path children)

/-- The body of `build_index` that runs while the vault is open: list the
root, seed the index and the stack, and run the loop. -/
def build_index_core (t : FSTree) : Except PyErr Index :=
  match listDir t [] with
  | Except.error e => Except.error e
  | Except.ok root_entries =>
    match buildIndexLoop t t.nodeCount ((root_entries.filter (fun e => e.is_dir)).reverse)
        [([], root_entries)] with
    | none => Except.error (PyErr.runtimeError "loop out of fuel")
    | some r => r

/-- `build_index` for the process-backed adapter: one scoped `open` whose
body is `build_index_core` on the mounted tree. -/
def buildIndexRun (a : CLIVaultAdapter) (t : FSTree) (passphrase mount_dir : String)
    (poll : Option Int) : Except PyErr Index × List MountEvent :=
  a.openRun passphrase mount_dir poll (fun _ => build_index_core t)

theorem nodeCount_pos (t : FSTree) : 0 < t.nodeCount := by
  cases t with
  | file s => simp [FSTree.nodeCount]
  | dir cs => simp [FSTree.nodeCount]

theorem nodeCountChildren_eq_sum (cs : List (String × FSTree)) :
    FSTree.nodeCountChildren cs = (cs.map (fun c => c.2.nodeCount)).sum := by
  induction cs with
  | nil => rfl
  | cons c cs ih => simp [FSTree.nodeCountChildren, ih]

theorem nodeCountChildren_mem {cs : List (String × FSTree)} {c : String × FSTree}
    (h : c ∈ cs) : c.2.nodeCount ≤ FSTree.nodeCountChildren cs := by
  induction cs with
  | nil => cases h
  | cons d ds ih =>
    rcases List.mem_cons.mp h with rfl | h2
    · simp [FSTree.nodeCountChildren]
    · have := ih h2
      simp only [FSTree.nodeCountChildren]
      omega

theorem childLookup_mem {n : String} {cs : List (String × FSTree)} {t : FSTree}
    (h : childLookup n cs = some t) : (n, t) ∈ cs := by
  induction cs with
  | nil => cases h
  | cons c cs ih =>
    by_cases hc : c.1 = n
    · rw [childLookup, if_pos hc] at h
      injection h with h
      subst h
      subst hc
      exact List.mem_cons_self _ _
    · rw [childLookup, if_neg hc] at h
      exact List.mem_cons_of_mem _ (ih h)

theorem childLookup_of_nodup {n : String} {cs : List (String × FSTree)} {t : FSTree}
    (hnd : (cs.map Prod.fst).Nodup) (h : (n, t) ∈ cs) : childLookup n cs = some t := by
  induction cs with
  | nil => cases h
  | cons c cs ih =>
    rcases List.pairwise_cons.mp hnd with ⟨hc1, hcs⟩
    rcases List.mem_cons.mp h with rfl | h2
    · simp [childLookup]
    · have hmemn : n ∈ cs.map Prod.fst := List.mem_map.mpr ⟨(n, t), h2, rfl⟩
      have hne : ¬ c.1 = n := fun he => hc1 n hmemn he
      rw [childLookup, if_neg hne]
      exact ih hcs h2

theorem wfbChildren_mem {cs : List (String × FSTree)} {c : String × FSTree}
    (hwf : FSTree.wfbChildren cs = true) (h : c ∈ cs) : c.2.wfb = true := by
  induction cs with
  | nil => cases h
  | cons d ds ih =>
    rw [FSTree.wfbChildren, Bool.and_eq_true] at hwf
    rcases List.mem_cons.mp h with rfl | h2
    · exact hwf.1
    · exact ih hwf.2 h2

theorem wfb_dir_elim {cs : List (String × FSTree)} (h : (FSTree.dir cs).wfb = true) :
    (cs.map Prod.fst).Nodup ∧ FSTree.wfbChildren cs = true := by
  rw [FSTree.wfb, Bool.and_eq_true, decide_eq_true_eq] at h
  exact h

theorem resolve_append (t : FSTree) (p q : List String) :
    t.resolve (p ++ q) = (t.resolve p).bind (fun s => s.resolve q) := by
  induction p generalizing t with
  | nil => simp [FSTree.resolve]
  | cons n rest ih =>
    cases t with
    | file s => simp [FSTree.resolve]
    | dir cs =>
      simp only [List.cons_append, FSTree.resolve]
      cases childLookup n cs with
      | none => simp
      | some c => simpa using ih c

theorem resolve_snoc (root : FSTree) (p : List String) (n : String)
    (cs : List (String × FSTree)) (h : root.resolve p = some (FSTree.dir cs)) :
    root.resolve (p ++ [n]) = childLookup n cs := by
  rw [resolve_append, h]
  show FSTree.resolve (FSTree.dir cs) [n] = childLookup n cs
  rw [FSTree.resolve]
  cases childLookup n cs with
  | none => rfl
  | some c => simp [FSTree.resolve]

theorem wfb_resolve {root : FSTree} (hwf : root.wfb = true) :
    ∀ {p : List String} {s : FSTree}, root.resolve p = some s → s.wfb = true := by
  intro p
  induction p generalizing root hwf with
  | nil =>
    intro s h
    rw [FSTree.resolve] at h
    injection h with h
    subst h
    exact hwf
  | cons n rest ih =>
    intro s h
    cases root with
    | file sz => cases h
    | dir cs =>
      rw [FSTree.resolve] at h
      rcases hc : childLookup n cs with _ | c
      · rw [hc] at h
        cases h
      · rw [hc] at h
        have hmem := childLookup_mem hc
        have hcwf : c.wfb = true := wfbChildren_mem (wfb_dir_elim hwf).2 hmem
        exact ih hcwf h

theorem reachChildren_mem {q : List String} {cs : List (String × FSTree)} {p : List String} :
    q ∈ FSTree.reachableDirsChildren cs p ↔
      ∃ c ∈ cs, q ∈ c.2.reachableDirs (p ++ [c.1]) := by
  induction cs with
  | nil => simp [FSTree.reachableDirsChildren]
  | cons c cs ih =>
    rw [FSTree.reachableDirsChildren, List.mem_append, ih]
    constructor
    · rintro (h | ⟨d, hd, hq⟩)
      · exact ⟨c, List.mem_cons_self _ _, h⟩
      · exact ⟨d, List.mem_cons_of_mem _ hd, hq⟩
    · rintro ⟨d, hd, hq⟩
      rcases List.mem_cons.mp hd with rfl | hd2
      · exact Or.inl hq
      · exact Or.inr ⟨d, hd2, hq⟩

theorem reachChildren_eq_flatMap (cs : List (String × FSTree)) (p : List String) :
    FSTree.reachableDirsChildren cs p =
      cs.flatMap (fun c => c.2.reachableDirs (p ++ [c.1])) := by
  induction cs with
  | nil => rfl
  | cons c cs ih => simp [FSTree.reachableDirsChildren, ih]

theorem reach_extends_fuel : ∀ (n : Nat) (t : FSTree), t.nodeCount ≤ n →
    ∀ (p q : List String), q ∈ t.reachableDirs p → ∃ r, q = p ++ r := by
  intro n
  induction n with
  | zero =>
    intro t ht
    have := nodeCount_pos t
    omega
  | succ n ih =>
    intro t ht p q hq
    cases t with
    | file s => simp [FSTree.reachableDirs] at hq
    | dir cs =>
      simp only [FSTree.reachableDirs, List.mem_cons] at hq
      rcases hq with rfl | hq
      · exact ⟨[], by simp⟩
      · obtain ⟨c, hc, hq2⟩ := reachChildren_mem.mp hq
        have hcn : c.2.nodeCount ≤ n := by
          have h1 := nodeCountChildren_mem hc
          rw [FSTree.nodeCount] at ht
          omega
        obtain ⟨r, hr⟩ := ih c.2 hcn (p ++ [c.1]) q hq2
        exact ⟨[c.1] ++ r, by simpa using hr⟩

theorem reach_extends {t : FSTree} {p q : List String} (h : q ∈ t.reachableDirs p) :
    ∃ r, q = p ++ r :=
  reach_extends_fuel t.nodeCount t le_rfl p q h

theorem reachChildren_extends {cs : List (String × FSTree)} {p q : List String}
    (h : q ∈ FSTree.reachableDirsChildren cs p) :
    ∃ c ∈ cs, ∃ r, q = p ++ [c.1] ++ r := by
  obtain ⟨c, hc, hq⟩ := reachChildren_mem.mp h
  obtain ⟨r, hr⟩ := reach_extends hq
  exact ⟨c, hc, r, hr⟩

theorem reachChildren_nodup_aux : ∀ (cs : List (String × FSTree)) (p : List String),
    (∀ c ∈ cs, (c.2.reachableDirs (p ++ [c.1])).Nodup) →
    (cs.map Prod.fst).Nodup →
    (FSTree.reachableDirsChildren cs p).Nodup := by
  intro cs
  induction cs with
  | nil => intro p _ _; simp [FSTree.reachableDirsChildren]
  | cons c cs ih =>
    intro p hnd hnames
    rcases List.pairwise_cons.mp hnames with ⟨hc1, hcs⟩
    rw [FSTree.reachableDirsChildren]
    refine List.Nodup.append (hnd c (List.mem_cons_self _ _)) (ih p ?_ hcs) ?_
    · intro d hd
      exact hnd d (List.mem_cons_of_mem _ hd)
    · intro q hq1 hq2
      obtain ⟨r1, hr1⟩ := reach_extends hq1
      obtain ⟨d, hd, r2, hr2⟩ := reachChildren_extends hq2
      have hne : c.1 ≠ d.1 := by
        intro he
        exact hc1 d.1 (List.mem_map.mpr ⟨d, hd, rfl⟩) he
      rw [hr1] at hr2
      rw [List.append_assoc, List.append_assoc] at hr2
      have := List.append_cancel_left hr2
      simp only [List.cons_append, List.nil_append, List.cons.injEq] at this
      exact hne this.1

theorem reach_nodup_fuel : ∀ (n : Nat) (t : FSTree), t.nodeCount ≤ n → t.wfb = true →
    ∀ (p : List String), (t.reachableDirs p).Nodup := by
  intro n
  induction n with
  | zero =>
    intro t ht
    have := nodeCount_pos t
    omega
  | succ n ih =>
    intro t ht hwf p
    cases t with
    | file s => simp [FSTree.reachableDirs]
    | dir cs =>
      rcases wfb_dir_elim hwf with ⟨hnames, hchildren⟩
      rw [FSTree.reachableDirs]
      refine List.nodup_cons.mpr ⟨?_, ?_⟩
      · intro hp
        obtain ⟨c, hc, r, hr⟩ := reachChildren_extends hp
        have := congrArg List.length hr
        simp at this
      · refine reachChildren_nodup_aux cs p ?_ hnames
        intro c hc
        have hcn : c.2.nodeCount ≤ n := by
          have h1 := nodeCountChildren_mem hc
          rw [FSTree.nodeCount] at ht
          omega
        exact ih c.2 hcn (wfbChildren_mem hchildren hc) (p ++ [c.1])

theorem reach_nodup {t : FSTree} (hwf : t.wfb = true) (p : List String) :
    (t.reachableDirs p).Nodup :=
  reach_nodup_fuel t.nodeCount t le_rfl hwf p

/-- The subtree weight of the node at a path (0 when unresolvable). -/
def weightAt (root : FSTree) (p : List String) : Nat :=
  match root.resolve p with
  | some t => t.nodeCount
  | none => 0

/-- The reachable directory paths below (and including) the node at a path. -/
def reachAt (root : FSTree) (p : List String) : List (List String) :=
  match root.resolve p with
  | some t => t.reachableDirs p
  | none => []

/-- Total subtree weight referenced by the worklist. -/
def stackMeasure (root : FSTree) (stack : List DirEntry) : Nat :=
  (stack.map (fun e => weightAt root e.path)).sum

/-- All directory paths the worklist still has to produce. -/
def stackReach (root : FSTree) (stack : List DirEntry) : List (List String) :=
  stack.flatMap (fun e => reachAt root e.path)

/-- The subdirectory entries pushed after listing the directory `cs` found
at path `p` (reversed: the source pops from the end of its stack). -/
def pushedOf (p : List String) (cs : List (String × FSTree)) : List DirEntry :=
  ((((pySort childLe cs).map (mkEntry p)).filter (fun e => e.is_dir)).reverse)

theorem flatMap_congr_mem {α β : Type} {l : List α} {f g : α → List β}
    (h : ∀ c ∈ l, f c = g c) : l.flatMap f = l.flatMap g := by
  induction l with
  | nil => rfl
  | cons c cs ih =>
    simp only [List.flatMap_cons]
    rw [h c (List.mem_cons_self _ _), ih (fun d hd => h d (List.mem_cons_of_mem _ hd))]

theorem flatMap_filter_of_nil {α β : Type} (q : α → Bool) (h : α → List β) (l : List α)
    (hnil : ∀ c ∈ l, q c = false → h c = []) : (l.filter q).flatMap h = l.flatMap h := by
  induction l with
  | nil => rfl
  | cons c cs ih =>
    have ih2 := ih (fun d hd hq => hnil d (List.mem_cons_of_mem _ hd) hq)
    rcases hq : q c with _ | _
    · rw [List.filter_cons_of_neg (by simp [hq]), List.flatMap_cons,
        hnil c (List.mem_cons_self _ _) hq, ih2]
      simp
    · rw [List.filter_cons_of_pos (by simp [hq]), List.flatMap_cons, List.flatMap_cons, ih2]

theorem sum_filter_le {α : Type} (q : α → Bool) (w : α → Nat) (l : List α) :
    ((l.filter q).map w).sum ≤ (l.map w).sum := by
  induction l with
  | nil => simp
  | cons c cs ih =>
    rcases hq : q c with _ | _
    · rw [List.filter_cons_of_neg (by simp [hq])]
      simp only [List.map_cons, List.sum_cons]
      omega
    · rw [List.filter_cons_of_pos (by simp [hq])]
      simp only [List.map_cons, List.sum_cons]
      omega

theorem pushed_mem {p : List String} {cs : List (String × FSTree)}
    {e : DirEntry} (he : e ∈ pushedOf p cs) :
    ∃ c ∈ cs, e = mkEntry p c ∧ childIsDir c.2 = true := by
  unfold pushedOf at he
  rw [List.mem_reverse, List.mem_filter] at he
  obtain ⟨hmem, hdir⟩ := he
  obtain ⟨c, hc, rfl⟩ := List.mem_map.mp hmem
  refine ⟨c, (pySort_perm childLe cs).mem_iff.mp hc, rfl, ?_⟩
  simpa [mkEntry] using hdir

theorem resolve_child {root : FSTree} (hwf : root.wfb = true) {p : List String}
    {cs : List (String × FSTree)} (hres : root.resolve p = some (FSTree.dir cs))
    {c : String × FSTree} (hc : c ∈ cs) :
    root.resolve (p ++ [c.1]) = some c.2 := by
  rw [resolve_snoc root p c.1 cs hres]
  have hnd := (wfb_dir_elim (wfb_resolve hwf hres)).1
  exact childLookup_of_nodup hnd (by simpa using hc)

theorem reachAt_child {root : FSTree} (hwf : root.wfb = true) {p : List String}
    {cs : List (String × FSTree)} (hres : root.resolve p = some (FSTree.dir cs))
    {c : String × FSTree} (hc : c ∈ cs) :
    reachAt root (p ++ [c.1]) = c.2.reachableDirs (p ++ [c.1]) := by
  unfold reachAt
  rw [resolve_child hwf hres hc]

theorem weightAt_child {root : FSTree} (hwf : root.wfb = true) {p : List String}
    {cs : List (String × FSTree)} (hres : root.resolve p = some (FSTree.dir cs))
    {c : String × FSTree} (hc : c ∈ cs) :
    weightAt root (p ++ [c.1]) = c.2.nodeCount := by
  unfold weightAt
  rw [resolve_child hwf hres hc]

theorem stackReach_pushed {root : FSTree} (hwf : root.wfb = true) {p : List String}
    {cs : List (String × FSTree)} (hres : root.resolve p = some (FSTree.dir cs)) :
    List.Perm (stackReach root (pushedOf p cs)) (FSTree.reachableDirsChildren cs p) := by
  unfold stackReach pushedOf
  have h1 : List.Perm
      (((((pySort childLe cs).map (mkEntry p)).filter (fun e => e.is_dir)).reverse).flatMap
        (fun e => reachAt root e.path))
      ((((pySort childLe cs).map (mkEntry p)).filter (fun e => e.is_dir)).flatMap
        (fun e => reachAt root e.path)) :=
    (List.reverse_perm _).flatMap_right _
  have h2 : (((pySort childLe cs).map (mkEntry p)).filter (fun e => e.is_dir)) =
      (((pySort childLe cs).filter (fun c => childIsDir c.2)).map (mkEntry p)) := by
    rw [List.filter_map]
    rfl
  have h3 : ((((pySort childLe cs).filter (fun c => childIsDir c.2)).map (mkEntry p)).flatMap
        (fun e => reachAt root e.path)) =
      (((pySort childLe cs).filter (fun c => childIsDir c.2)).flatMap
        (fun c => reachAt root (p ++ [c.1]))) := by
    rw [List.flatMap_map]
    rfl
  have h4 : (((pySort childLe cs).filter (fun c => childIsDir c.2)).flatMap
        (fun c => reachAt root (p ++ [c.1]))) =
      ((pySort childLe cs).flatMap (fun c => reachAt root (p ++ [c.1]))) := by
    apply flatMap_filter_of_nil
    intro c hc hq
    have hcs : c ∈ cs := (pySort_perm childLe cs).mem_iff.mp hc
    rw [reachAt_child hwf hres hcs]
    cases hcc : c.2 with
    | file s => rfl
    | dir ds =>
      rw [hcc] at hq
      simp [childIsDir] at hq
  have h5 : List.Perm ((pySort childLe cs).flatMap (fun c => reachAt root (p ++ [c.1])))
      (cs.flatMap (fun c => reachAt root (p ++ [c.1]))) :=
    (pySort_perm childLe cs).flatMap_right _
  have h6 : cs.flatMap (fun c => reachAt root (p ++ [c.1])) =
      FSTree.reachableDirsChildren cs p := by
    rw [reachChildren_eq_flatMap]
    exact flatMap_congr_mem (fun c hc => reachAt_child hwf hres hc)
  refine h1.trans ?_
  rw [h2, h3, h4, ← h6]
  exact h5

theorem stackMeasure_pushed {root : FSTree} (hwf : root.wfb = true) {p : List String}
    {cs : List (String × FSTree)} (hres : root.resolve p = some (FSTree.dir cs)) :
    stackMeasure root (pushedOf p cs) ≤ FSTree.nodeCountChildren cs := by
  unfold stackMeasure pushedOf
  have h1 : ((((((pySort childLe cs).map (mkEntry p)).filter
          (fun e => e.is_dir)).reverse).map (fun e => weightAt root e.path)).sum) =
      (((((pySort childLe cs).map (mkEntry p)).filter (fun e => e.is_dir)).map
        (fun e => weightAt root e.path)).sum) :=
    ((List.reverse_perm _).map _).sum_eq
  rw [h1, List.filter_map, List.map_map]
  have h2 : ∀ c ∈ ((pySort childLe cs).filter
        ((fun e : DirEntry => e.is_dir) ∘ (mkEntry p))),
      ((fun e => weightAt root e.path) ∘ (mkEntry p)) c = c.2.nodeCount := by
    intro c hc
    have hcs : c ∈ cs :=
      (pySort_perm childLe cs).mem_iff.mp (List.mem_of_mem_filter hc)
    exact weightAt_child hwf hres hcs
  rw [List.map_congr_left h2]
  have h3 := sum_filter_le ((fun e : DirEntry => e.is_dir) ∘ (mkEntry p))
    (fun c : String × FSTree => c.2.nodeCount) (pySort childLe cs)
  refine le_trans h3 ?_
  have h4 : (((pySort childLe cs).map (fun c => c.2.nodeCount)).sum) =
      ((cs.map (fun c => c.2.nodeCount)).sum) :=
    ((pySort_perm childLe cs).map _).sum_eq
  rw [h4, ← nodeCountChildren_eq_sum]

theorem indexLookup_eq_none_iff (idx : Index) (p : List String) :
    indexLookup idx p = none ↔ p ∉ idx.map Prod.fst := by
  induction idx with
  | nil => simp [indexLookup]
  | cons kv rest ih =>
    by_cases hk : kv.1 = p
    · simp [indexLookup, hk]
    · rw [indexLookup, if_neg hk]
      simp only [List.map_cons, List.mem_cons]
      rw [ih]
      constructor
      · rintro h (h1 | h2)
        · exact hk h1.symm
        · exact h h2
      · intro h h2
        exact h (Or.inr h2)

/-- The `build_index` worklist invariant: with enough fuel, a worklist whose
entries all resolve to directories, whose paths are non-root, and whose
pending reachable-path multiset is disjoint from the keys already recorded
(all together duplicate-free), runs to completion; the final key multiset is
the recorded keys plus every pending reachable path, and recorded listings
outside the pending set are untouched. -/
theorem buildIndexLoop_spec (root : FSTree) (hwf : root.wfb = true) :
    ∀ (fuel : Nat) (stack : List DirEntry) (index : Index),
      stackMeasure root stack < fuel →
      (∀ e ∈ stack, ∃ cs, root.resolve e.path = some (FSTree.dir cs)) →
      (∀ e ∈ stack, e.path ≠ []) →
      ((index.map Prod.fst) ++ stackReach root stack).Nodup →
      ∃ idx2, buildIndexLoop root fuel stack index = some (Except.ok idx2) ∧
        List.Perm (idx2.map Prod.fst) ((index.map Prod.fst) ++ stackReach root stack) ∧
        (∀ q es, indexLookup index q = some es → q ∉ stackReach root stack →
          indexLookup idx2 q = some es) := by
  intro fuel
  induction fuel with
  | zero =>
    intro stack index hm _ _ _
    omega
  | succ fuel ih =>
    intro stack index hm hres hne hnd
    cases stack with
    | nil =>
      refine ⟨index, rfl, ?_, fun q es h _ => h⟩
      simp [stackReach]
    | cons e rest =>
      obtain ⟨cs, hcs⟩ := hres e (List.mem_cons_self _ _)
      have hlist : listDir root e.path =
          Except.ok ((pySort childLe cs).map (mkEntry e.path)) := by
        unfold listDir
        rw [hcs]
      have hstep : buildIndexLoop root (fuel + 1) (e :: rest) index =
          buildIndexLoop root fuel (pushedOf e.path cs ++ rest)
            (indexStore index e.path ((pySort childLe cs).map (mkEntry e.path))) := by
        simp only [buildIndexLoop, hlist]
        rfl
      have hreachE : reachAt root e.path =
          e.path :: FSTree.reachableDirsChildren cs e.path := by
        unfold reachAt
        rw [hcs]
        rfl
      have hweightE : weightAt root e.path = 1 + FSTree.nodeCountChildren cs := by
        unfold weightAt
        rw [hcs]
        rfl
      have hsr : stackReach root (e :: rest) =
          reachAt root e.path ++ stackReach root rest := by
        simp [stackReach]
      have hEmem : e.path ∈ stackReach root (e :: rest) := by
        rw [hsr, hreachE]
        exact List.mem_append_left _ (List.mem_cons_self _ _)
      have hfresh : indexLookup index e.path = none := by
        rw [indexLookup_eq_none_iff]
        intro hmem
        exact (List.disjoint_of_nodup_append hnd) hmem hEmem
      have hkeys2 : (indexStore index e.path
            ((pySort childLe cs).map (mkEntry e.path))).map Prod.fst =
          index.map Prod.fst ++ [e.path] := by
        apply indexStore_keys_none
        rw [hfresh]
        simp
      have hm2 : stackMeasure root (pushedOf e.path cs ++ rest) < fuel := by
        have hsplit : stackMeasure root (pushedOf e.path cs ++ rest) =
            stackMeasure root (pushedOf e.path cs) + stackMeasure root rest := by
          simp [stackMeasure]
        have hpush := stackMeasure_pushed hwf hcs
        have hm1 : stackMeasure root (e :: rest) =
            weightAt root e.path + stackMeasure root rest := by
          simp [stackMeasure]
        rw [hm1, hweightE] at hm
        omega
      have hres2 : ∀ e' ∈ pushedOf e.path cs ++ rest,
          ∃ cs', root.resolve e'.path = some (FSTree.dir cs') := by
        intro e' he'
        rcases List.mem_append.mp he' with h | h
        · obtain ⟨c, hc, rfl, hdir⟩ := pushed_mem h
          cases hcc : c.2 with
          | file s =>
            rw [hcc] at hdir
            simp [childIsDir] at hdir
          | dir ds =>
            refine ⟨ds, ?_⟩
            have h2 := resolve_child hwf hcs hc
            rw [hcc] at h2
            simpa [mkEntry] using h2
        · exact hres e' (List.mem_cons_of_mem _ h)
      have hne2 : ∀ e' ∈ pushedOf e.path cs ++ rest, e'.path ≠ [] := by
        intro e' he'
        rcases List.mem_append.mp he' with h | h
        · obtain ⟨c, hc, rfl, _⟩ := pushed_mem h
          simp [mkEntry]
        · exact hne e' (List.mem_cons_of_mem _ h)
      have hsr2 : List.Perm (stackReach root (pushedOf e.path cs ++ rest))
          (FSTree.reachableDirsChildren cs e.path ++ stackReach root rest) := by
        have hx : stackReach root (pushedOf e.path cs ++ rest) =
            stackReach root (pushedOf e.path cs) ++ stackReach root rest := by
          simp [stackReach]
        rw [hx]
        exact (stackReach_pushed hwf hcs).append_right _
      have hKperm : List.Perm
          ((indexStore index e.path
              ((pySort childLe cs).map (mkEntry e.path))).map Prod.fst ++
            stackReach root (pushedOf e.path cs ++ rest))
          (index.map Prod.fst ++ stackReach root (e :: rest)) := by
        rw [hkeys2, hsr, hreachE, List.append_assoc]
        refine List.Perm.append_left _ ?_
        have h3 : List.Perm (e.path :: stackReach root (pushedOf e.path cs ++ rest))
            (e.path :: (FSTree.reachableDirsChildren cs e.path ++ stackReach root rest)) :=
          hsr2.cons _
        simpa using h3
      have hnd2 : ((indexStore index e.path
            ((pySort childLe cs).map (mkEntry e.path))).map Prod.fst ++
          stackReach root (pushedOf e.path cs ++ rest)).Nodup :=
        hKperm.nodup_iff.mpr hnd
      obtain ⟨idx2, hrun, hperm2, hpres2⟩ := ih (pushedOf e.path cs ++ rest)
        (indexStore index e.path ((pySort childLe cs).map (mkEntry e.path)))
        hm2 hres2 hne2 hnd2
      refine ⟨idx2, ?_, ?_, ?_⟩
      · rw [hstep]
        exact hrun
      · exact hperm2.trans hKperm
      · intro q es hq hqnot
        have hqneq : q ≠ e.path := fun h => hqnot (h ▸ hEmem)
        have hq2 : indexLookup (indexStore index e.path
              ((pySort childLe cs).map (mkEntry e.path))) q = some es := by
          rw [indexLookup_store_other index e.path _ q hqneq]
          exact hq
        have hqnot2 : q ∉ stackReach root (pushedOf e.path cs ++ rest) := by
          intro hmem
          apply hqnot
          have hx := hsr2.mem_iff.mp hmem
          rw [hsr, hreachE]
          rcases List.mem_append.mp hx with h | h
          · exact List.mem_append_left _ (List.mem_cons_of_mem _ h)
          · exact List.mem_append_right _ h
        exact hpres2 q es hq2 hqnot2

theorem pushed_resolve {root : FSTree} (hwf : root.wfb = true) {p : List String}
    {cs : List (String × FSTree)} (hres : root.resolve p = some (FSTree.dir cs)) :
    ∀ e ∈ pushedOf p cs, ∃ cs', root.resolve e.path = some (FSTree.dir cs') := by
  intro e he
  obtain ⟨c, hc, rfl, hdir⟩ := pushed_mem he
  cases hcc : c.2 with
  | file s =>
    rw [hcc] at hdir
    simp [childIsDir] at hdir
  | dir ds =>
    refine ⟨ds, ?_⟩
    have h2 := resolve_child hwf hres hc
    rw [hcc] at h2
    simpa [mkEntry] using h2

theorem pushed_ne_nil {p : List String} {cs : List (String × FSTree)} :
    ∀ e ∈ pushedOf p cs, e.path ≠ [] := by
  intro e he
  obtain ⟨c, hc, rfl, _⟩ := pushed_mem he
  simp [mkEntry]

/-- C7: on a well-formed vault tree whose root is a directory, when the
unlock succeeds, `build_index` performs exactly one mount and one unmount
(the unmount after the body, before returning — the whole trace is
`mkdtemp, unlock, yield, umount, rmdir`); it returns an index whose key
multiset is exactly the reachable directories (each exactly once, keys
duplicate-free); and the entry for the root path equals what a direct
`list_dir(root, "/")` on the freshly mounted root returns. -/
theorem claim_C7 (a : CLIVaultAdapter) (t : FSTree) (p d : String) (poll : Option Int)
    (cs : List (String × FSTree)) (ht : t = FSTree.dir cs) (hwf : t.wfb = true)
    (hpoll : start_background_process poll = Except.ok ()) :
    ((buildIndexRun a t p d poll).2 =
      [MountEvent.mkdtemp d, MountEvent.unlockCmd d, MountEvent.yieldRoot d,
        MountEvent.umountCmd d, MountEvent.rmdir d]) ∧
    (∃ idx, (buildIndexRun a t p d poll).1 = Except.ok idx ∧
      List.Perm (idx.map Prod.fst) (t.reachableDirs []) ∧
      (idx.map Prod.fst).Nodup ∧
      (∀ r, listDir t [] = Except.ok r → indexLookup idx [] = some r)) := by
  subst ht
  have htrace : (buildIndexRun a (FSTree.dir cs) p d poll).2 =
      [MountEvent.mkdtemp d, MountEvent.unlockCmd d, MountEvent.yieldRoot d,
        MountEvent.umountCmd d, MountEvent.rmdir d] := by
    unfold buildIndexRun CLIVaultAdapter.openRun
    rw [hpoll]
    rfl
  have hrun1 : (buildIndexRun a (FSTree.dir cs) p d poll).1 =
      build_index_core (FSTree.dir cs) := by
    unfold buildIndexRun CLIVaultAdapter.openRun
    rw [hpoll]
  have hresolve : (FSTree.dir cs).resolve [] = some (FSTree.dir cs) := rfl
  have hlist : listDir (FSTree.dir cs) [] =
      Except.ok ((pySort childLe cs).map (mkEntry [])) := by
    unfold listDir
    rw [hresolve]
  have hreach0 : List.Perm (stackReach (FSTree.dir cs) (pushedOf [] cs))
      (FSTree.reachableDirsChildren cs []) := stackReach_pushed hwf hresolve
  have hnd0 : (([([], (pySort childLe cs).map (mkEntry []))] : Index).map Prod.fst ++
      stackReach (FSTree.dir cs) (pushedOf [] cs)).Nodup := by
    have hK0 : List.Perm
        ((([([], (pySort childLe cs).map (mkEntry []))] : Index).map Prod.fst) ++
          stackReach (FSTree.dir cs) (pushedOf [] cs))
        ((FSTree.dir cs).reachableDirs []) := by
      rw [FSTree.reachableDirs]
      simpa using hreach0.cons ([] : List String)
    exact hK0.nodup_iff.mpr (reach_nodup hwf [])
  have hmeas : stackMeasure (FSTree.dir cs) (pushedOf [] cs) <
      (FSTree.dir cs).nodeCount := by
    have h1 := stackMeasure_pushed hwf hresolve
    rw [FSTree.nodeCount]
    omega
  obtain ⟨idx2, hrun, hperm, hpres⟩ := buildIndexLoop_spec (FSTree.dir cs) hwf
    ((FSTree.dir cs).nodeCount) (pushedOf [] cs)
    [([], (pySort childLe cs).map (mkEntry []))]
    hmeas (pushed_resolve hwf hresolve) pushed_ne_nil hnd0
  have hcore : build_index_core (FSTree.dir cs) = Except.ok idx2 := by
    have hrun2 : buildIndexLoop (FSTree.dir cs) (FSTree.dir cs).nodeCount
        (((((pySort childLe cs).map (mkEntry [])).filter (fun e => e.is_dir)).reverse))
        [([], (pySort childLe cs).map (mkEntry []))] = some (Except.ok idx2) := hrun
    unfold build_index_core
    rw [hlist]
    show (match buildIndexLoop (FSTree.dir cs) (FSTree.dir cs).nodeCount
        (((((pySort childLe cs).map (mkEntry [])).filter (fun e => e.is_dir)).reverse))
        [([], (pySort childLe cs).map (mkEntry []))] with
      | none => Except.error (PyErr.runtimeError "loop out of fuel")
      | some r => r) = Except.ok idx2
    rw [hrun2]
  have hrootlookup : indexLookup idx2 [] =
      some ((pySort childLe cs).map (mkEntry [])) := by
    apply hpres
    · simp [indexLookup]
    · intro hmem
      have h2 := hreach0.mem_iff.mp hmem
      obtain ⟨c, hc, r, hr⟩ := reachChildren_extends h2
      simp at hr
  refine ⟨htrace, idx2, by rw [hrun1, hcore], ?_, ?_, ?_⟩
  · refine hperm.trans ?_
    rw [FSTree.reachableDirs]
    simpa using hreach0.cons ([] : List String)
  · have hnd2 := hperm.nodup_iff.mpr hnd0
    exact hnd2
  · intro r hr
    rw [hlist] at hr
    injection hr with hr
    rw [hrootlookup, hr]

/-- A small concrete vault tree used by the witnesses. -/
def demoTree : FSTree :=
  FSTree.dir [("b", FSTree.dir [("c", FSTree.file 7)]), ("a", FSTree.file 3)]

/-- The root listing of `demoTree` (directories first, then files). -/
def demoRootEntries : List DirEntry :=
  [{ name := "b", path := ["b"], is_dir := true, size := none },
    { name := "a", path := ["a"], is_dir := false, size := some 3 }]

/-- The index `build_index` produces for `demoTree`. -/
def demoBuiltIndex : Index :=
  [([], demoRootEntries),
    (["b"], [{ name := "c", path := ["b", "c"], is_dir := false, size := some 7 }])]

theorem claim_C7_witness :
    ((buildIndexRun cliA demoTree "pw" "/m" none).2 =
      [MountEvent.mkdtemp "/m", MountEvent.unlockCmd "/m", MountEvent.yieldRoot "/m",
        MountEvent.umountCmd "/m", MountEvent.rmdir "/m"]) ∧
    (buildIndexRun cliA demoTree "pw" "/m" none).1 = Except.ok demoBuiltIndex ∧
    List.Perm (demoBuiltIndex.map Prod.fst) (demoTree.reachableDirs []) ∧
    (demoBuiltIndex.map Prod.fst).Nodup ∧
    indexLookup demoBuiltIndex [] = some demoRootEntries := by
  obtain ⟨htr, idx, hok, hperm, hnd, hroot⟩ :=
    claim_C7 cliA demoTree "pw" "/m" none
      [("b", FSTree.dir [("c", FSTree.file 7)]), ("a", FSTree.file 3)] rfl (by decide) rfl
  have he : (buildIndexRun cliA demoTree "pw" "/m" none).1 = Except.ok demoBuiltIndex := rfl
  rw [he] at hok
  injection hok with hok
  subst hok
  exact ⟨htr, he, hperm, hnd, hroot demoRootEntries rfl⟩

/-- C10 (amended): with no session index, when the fallback mount-and-list
raises `VaultAdapterError` — in particular when the requested path does not
exist in the vault — `list_entries` returns the empty listing instead of
propagating, so a missing path is indistinguishable from an empty
directory. (A mount failure of the process-backed adapter, by contrast,
raises a plain `RuntimeError` that propagates; see the counterexample.) -/
theorem claim_C10 (path : List String) (m : String) (t : FSTree)
    (fallback : Except PyErr (List DirEntry))
    (hf : fallback = Except.error (PyErr.vaultAdapterError m))
    (hres : t.resolve path = none) :
    list_entries none path fallback = Except.ok [] ∧
    list_entries none path (listDir t path) = Except.ok [] := by
  constructor
  · subst hf
    rfl
  · unfold list_entries listFallback listDir
    rw [hres]
    rfl

theorem claim_C10_witness :
    list_entries none ["missing"] (Except.error (PyErr.vaultAdapterError "boom")) =
        Except.ok [] ∧
    list_entries none ["missing"] (listDir (FSTree.dir []) ["missing"]) = Except.ok [] :=
  claim_C10 ["missing"] "boom" (FSTree.dir []) _ rfl rfl

theorem claim_C10_counterexample :
    list_entries none []
        ((cliA.openRun "pw" "/tmp/mounts/vault-w" (some 1)
          (fun _ => Except.ok ([] : List DirEntry))).1) =
      Except.error (PyErr.runtimeError ("Process failed with code " ++ toString (1 : Int))) ∧
    (Except.error (PyErr.runtimeError ("Process failed with code " ++ toString (1 : Int))) :
        Except PyErr (List DirEntry)) ≠ Except.ok [] := by
  refine ⟨rfl, ?_⟩
  intro h
  cases h

end VaultServer
